import Mathlib

/-!
Verification of the scheduled image sync pipeline
(`src/app/api/hourly-upload/route.ts`).

The route lists a GitHub folder, filters image files by extension,
uploads each image to Cloudinary in a sequential loop that tolerates
per-item failures, and returns a JSON report of the successes.
External effects (the GitHub listing request and each Cloudinary
upload) are modelled as explicit inputs: the listing outcome is an
`Except` value and the per-item upload outcome is an oracle
`GitHubFile → Option String` returning the secure URL on success.
-/

namespace HourlyUpload

/-- A GitHub contents-API entry, as typed in the route
(`type GitHubFile = { name; download_url; type }`). -/
structure GitHubFile where
  name : String
  download_url : String
  type : String
deriving DecidableEq, Repr

/-- The extension allow-list of the regex `/\.(jpe?g|png|gif|webp)$/i`,
as raw character lists (each alternative with its leading dot). -/
def imageExts : List (List Char) :=
  [".jpg".data, ".jpeg".data, ".png".data, ".gif".data, ".webp".data]

/-- `/\.(jpe?g|png|gif|webp)$/i.test name`: the name, lower-cased
character by character (the regex `i` flag), ends with one of the
allowed extensions. -/
def isImageName (s : String) : Bool :=
  imageExts.any (fun e => e.isSuffixOf (s.data.map Char.toLower))

/-- The filter predicate of `files.filter(...)` in the route:
`file.type === 'file' && /\.(jpe?g|png|gif|webp)$/i.test(file.name)`. -/
def isEligible (f : GitHubFile) : Bool :=
  f.type == "file" && isImageName f.name

/-- `const imageFiles = files.filter(...)`. -/
def imageFiles (files : List GitHubFile) : List GitHubFile :=
  files.filter isEligible

/-- Scan of `/\.[^/.]+$/` after its leading dot, over the reversed
name: consume characters other than `.` and `/`; succeed at the first
`.`, returning what remains before it; fail on `/` or at the start of
the string. -/
def stripExtRevGo : List Char → Option (List Char)
  | [] => none
  | c :: cs =>
      if c = '.' then some cs
      else if c = '/' then none
      else stripExtRevGo cs

/-- Match of `/\.[^/.]+$/` on the reversed name: the last character
must exist and be neither `.` nor `/` (the `+` requires at least one
such character), then the scan continues to the dot. -/
def stripExtRev : List Char → Option (List Char)
  | [] => none
  | c :: cs => if c = '.' ∨ c = '/' then none else stripExtRevGo cs

/-- `file.name.replace(/\.[^/.]+$/, '')`: remove the final extension
segment when the regex matches, otherwise return the name unchanged. -/
def stripExt (s : String) : String :=
  match stripExtRev s.data.reverse with
  | some r => String.mk r.reverse
  | none => s

/-- One entry of the cloudinary transformation array
(`{ width, height, crop }`). -/
structure Transformation where
  width : Nat
  height : Nat
  crop : String
deriving DecidableEq, Repr

/-- The options object passed to `cloudinary.v2.uploader.upload_stream`.
Absent keys of the JS object are `none` / `[]` here. -/
structure UploadOptions where
  folder : String
  public_id : String
  format : Option String
  transformation : List Transformation
deriving DecidableEq, Repr

/-- The options the route actually passes:
`{ folder: 'github-images', public_id: publicId }` — no `format` key
and no `transformation` key. -/
def uploadOptions (publicId : String) : UploadOptions :=
  { folder := "github-images", public_id := publicId,
    format := none, transformation := [] }

/-- One invocation of `uploadImageFromUrl(rawUrl, publicId)`: the
source URL fetched by axios and the options handed to
`upload_stream`. -/
structure UploadCall where
  url : String
  options : UploadOptions
deriving DecidableEq, Repr

/-- One element pushed onto `uploadResults`:
`{ file: file.name, url: result.secure_url }`. -/
structure UploadEntry where
  file : String
  url : String
deriving DecidableEq, Repr

/-- The call issued for `file` in the loop body:
`rawUrl = file.download_url`, `publicId = file.name.replace(...)`. -/
def uploadCallOf (f : GitHubFile) : UploadCall :=
  ⟨f.download_url, uploadOptions (stripExt f.name)⟩

/-- The `for (const file of imageFiles)` loop. Every iteration issues
its upload call; the inner `try`/`catch` keeps a failed iteration from
stopping the loop, and only successes are pushed onto
`uploadResults`. Returns (calls issued, `uploadResults`). -/
def processFiles (up : GitHubFile → Option String) :
    List GitHubFile → List UploadCall × List UploadEntry
  | [] => ([], [])
  | f :: rest =>
      let out := processFiles up rest
      match up f with
      | some u => (uploadCallOf f :: out.1, UploadEntry.mk f.name u :: out.2)
      | none => (uploadCallOf f :: out.1, out.2)

/-- The upload calls the loop issues. -/
def uploadCalls (up : GitHubFile → Option String) (l : List GitHubFile) :
    List UploadCall :=
  (processFiles up l).1

/-- The final `uploadResults` accumulator. -/
def runUploads (up : GitHubFile → Option String) (l : List GitHubFile) :
    List UploadEntry :=
  (processFiles up l).2

/-- The GitHub listing request the route sends with `axios.get`:
URL built from owner and repo, a fixed `Accept` header, and no
`Authorization` header (the token line in the source is commented
out, so the token argument is unused). -/
structure ListingRequest where
  url : String
  accept : String
  authorization : Option String
deriving DecidableEq, Repr

/-- The request built by the route for given owner, repo and optional
`GITHUB_TOKEN`. -/
def listingRequest (owner repo : String) (_token : Option String) :
    ListingRequest :=
  ⟨"https://api.github.com/repos/" ++ owner ++ "/" ++ repo ++ "/contents/images",
   "application/vnd.github.v3+json",
   none⟩

/-- The JSON body of the route's `Response`. -/
inductive Body where
  | report (message : String) (uploaded : List UploadEntry)
  | error (msg : String)
deriving DecidableEq, Repr

/-- The route's HTTP response: status code and JSON body. -/
structure HttpResponse where
  status : Nat
  body : Body
deriving DecidableEq, Repr

/-- The `GET` handler. The outer `try`/`catch` wraps the listing
request: when it throws, the handler returns status 500 with the error
message; otherwise it filters, runs the upload loop, and returns
status 200 with `{ message: 'Upload complete', uploaded: uploadResults }`. -/
def GET (listing : Except String (List GitHubFile))
    (up : GitHubFile → Option String) : HttpResponse :=
  match listing with
  | Except.ok files =>
      ⟨200, Body.report "Upload complete" (runUploads up (imageFiles files))⟩
  | Except.error e => ⟨500, Body.error e⟩

/-- The upload calls issued during a run of `GET`: none when the
listing throws (the loop is never reached), the loop's calls
otherwise. -/
def GETcalls (listing : Except String (List GitHubFile))
    (up : GitHubFile → Option String) : List UploadCall :=
  match listing with
  | Except.ok files => uploadCalls up (imageFiles files)
  | Except.error _ => []

/-- The extension allow-list exactly as the specification words it:
`{jpg, jpeg, png, gif, webp}`. -/
def specAllowList : List String := ["jpg", "jpeg", "png", "gif", "webp"]

/-- Eligibility as the specification words it: kind is `file` and the
name ends, case-insensitively, with a dot followed by one of the
allow-list extensions. -/
def specEligible (f : GitHubFile) : Bool :=
  f.type == "file" &&
    specAllowList.any
      (fun ext => ("." ++ ext).data.isSuffixOf (f.name.data.map Char.toLower))

/-- Identifier derivation as the specification words it: the name with
the last extension segment stripped — drop the trailing run of
non-dot characters and the dot before it. -/
def specStripLastExt (s : String) : String :=
  match s.data.reverse.dropWhile (fun c => c ≠ '.') with
  | '.' :: rest => String.mk rest.reverse
  | _ => s

/-! ### Helper lemmas about the upload loop -/

/-- Every iteration of the loop issues its upload call, whether or not
the upload succeeds. -/
lemma processFiles_fst (up : GitHubFile → Option String) (l : List GitHubFile) :
    (processFiles up l).1 = l.map uploadCallOf := by
  induction l with
  | nil => rfl
  | cons f rest ih => cases hu : up f <;> simp [processFiles, hu, ih]

/-- `uploadResults` collects exactly the successes, in input order. -/
lemma runUploads_eq (up : GitHubFile → Option String) (l : List GitHubFile) :
    runUploads up l =
      (l.filter (fun f => (up f).isSome)).map
        (fun f => UploadEntry.mk f.name ((up f).getD "")) := by
  induction l with
  | nil => rfl
  | cons f rest ih =>
      cases hu : up f <;>
        simp [runUploads, processFiles, hu, List.filter_cons] <;>
        simpa [runUploads] using ih

/-- Successes and failures partition the loop's input. -/
lemma length_filter_isSome_add_isNone (up : GitHubFile → Option String)
    (l : List GitHubFile) :
    (l.filter (fun f => (up f).isSome)).length
      + (l.filter (fun f => (up f).isNone)).length = l.length := by
  induction l with
  | nil => rfl
  | cons f rest ih => cases hu : up f <;> simp [List.filter_cons, hu] <;> omega

/-! ### Helper lemmas about characters and extension stripping -/

/-- `Char.toLower` sends only `'.'` to `'.'`: basic-latin lowering adds
32 to an upper-case code point, which cannot land on code point 46. -/
lemma toLower_eq_dot {c : Char} (h : c.toLower = '.') : c = '.' := by
  by_cases hc : c.toNat ≥ 65 ∧ c.toNat ≤ 90
  · exfalso
    have hlow : c.toLower = Char.ofNat (c.toNat + 32) := by
      simp [Char.toLower, hc]
    have hv : (c.toNat + 32).isValidChar := Or.inl (by omega)
    have htn : (Char.ofNat (c.toNat + 32)).toNat = c.toNat + 32 := by
      unfold Char.ofNat
      rw [dif_pos hv]
      simp [Char.ofNatAux, Char.toNat, UInt32.toNat]
    rw [hlow] at h
    have h46 := congrArg Char.toNat h
    rw [htn] at h46
    have : ('.' : Char).toNat = 46 := by decide
    omega
  · have : c.toLower = c := by simp [Char.toLower, hc]
    rw [this] at h
    exact h

/-- A character whose lowering avoids `'.'` and `'/'` is itself neither
`'.'` nor `'/'`. -/
lemma ne_dot_slash_of_toLower {c : Char} (h1 : c.toLower ≠ '.')
    (h2 : c.toLower ≠ '/') : c ≠ '.' ∧ c ≠ '/' := by
  constructor
  · intro h3; apply h1; subst h3; decide
  · intro h3; apply h2; subst h3; decide

/-- The scan for the extension dot succeeds past any run of characters
other than `.` and `/`. -/
lemma stripExtRevGo_append (a t : List Char)
    (h : ∀ c ∈ a, c ≠ '.' ∧ c ≠ '/') :
    stripExtRevGo (a ++ '.' :: t) = some t := by
  induction a with
  | nil => simp [stripExtRevGo]
  | cons c cs ih =>
      have hc := h c (List.mem_cons_self c cs)
      simp only [List.cons_append, stripExtRevGo, if_neg hc.1, if_neg hc.2]
      exact ih fun d hd => h d (List.mem_cons_of_mem c hd)

/-- On a name of the form `stem ++ "." ++ ext` with a non-empty final
segment free of `.` and `/`, the replace removes exactly that final
segment and its dot. -/
lemma stripExt_of_shape (stem ext : List Char) (hne : ext ≠ [])
    (hext : ∀ c ∈ ext, c ≠ '.' ∧ c ≠ '/') :
    stripExt (String.mk (stem ++ '.' :: ext)) = String.mk stem := by
  obtain ⟨r0, rs, hr⟩ : ∃ r0 rs, ext.reverse = r0 :: rs := by
    cases he : ext.reverse with
    | nil => exact absurd (List.reverse_eq_nil_iff.mp he) hne
    | cons r0 rs => exact ⟨r0, rs, rfl⟩
  have hr0 : r0 ∈ ext := by
    have : r0 ∈ ext.reverse := by rw [hr]; exact List.mem_cons_self r0 rs
    simpa using this
  have hrs : ∀ c ∈ rs, c ≠ '.' ∧ c ≠ '/' := by
    intro c hc
    have : c ∈ ext.reverse := by rw [hr]; exact List.mem_cons_of_mem r0 hc
    exact hext c (by simpa using this)
  have hdata : (String.mk (stem ++ '.' :: ext)).data.reverse
      = r0 :: (rs ++ '.' :: stem.reverse) := by
    simp [List.reverse_append, hr]
  unfold stripExt
  rw [hdata]
  have hcond : ¬(r0 = '.' ∨ r0 = '/') := by
    rcases hext r0 hr0 with ⟨h1, h2⟩
    rintro (h3 | h3) <;> [exact h1 h3; exact h2 h3]
  simp only [stripExtRev, if_neg hcond, stripExtRevGo_append rs stem.reverse hrs,
    List.reverse_reverse]

/-- `dropWhile` passes over a block whose members all satisfy the
predicate. -/
lemma dropWhile_append_of_all {p : Char → Bool} (a b : List Char)
    (h : ∀ c ∈ a, p c = true) :
    (a ++ b).dropWhile p = b.dropWhile p := by
  induction a with
  | nil => rfl
  | cons c cs ih =>
      simp only [List.cons_append, List.dropWhile_cons,
        h c (List.mem_cons_self c cs), if_pos rfl]
      exact ih fun d hd => h d (List.mem_cons_of_mem c hd)

/-- The spec-worded stripping agrees with the replace on names of the
final-extension shape. -/
lemma specStripLastExt_of_shape (stem ext : List Char)
    (hext : ∀ c ∈ ext, c ≠ '.') :
    specStripLastExt (String.mk (stem ++ '.' :: ext)) = String.mk stem := by
  unfold specStripLastExt
  have hdata : (String.mk (stem ++ '.' :: ext)).data.reverse
      = ext.reverse ++ '.' :: stem.reverse := by
    simp [List.reverse_append]
  rw [hdata, dropWhile_append_of_all ext.reverse ('.' :: stem.reverse)
    (fun c hc => decide_eq_true (hext c (by simpa using hc)))]
  simp [List.dropWhile_cons]

/-- An eligible name splits as `stem ++ "." ++ ext` with the final
segment non-empty and free of `.` and `/`. -/
lemma shape_of_suffix {s : String} {e : List Char}
    (hsuf : e.isSuffixOf (s.data.map Char.toLower) = true)
    (tail : List Char) (hdot : e = '.' :: tail) (htne : tail ≠ [])
    (htail : ∀ w ∈ tail, w ≠ '.' ∧ w ≠ '/') :
    ∃ stem ext : List Char, s.data = stem ++ '.' :: ext ∧ ext ≠ [] ∧
      ∀ c ∈ ext, c ≠ '.' ∧ c ≠ '/' := by
  subst hdot
  rw [List.isSuffixOf_iff_suffix] at hsuf
  obtain ⟨t, ht⟩ := hsuf
  have hmap : s.data.map Char.toLower = t ++ '.' :: tail := ht.symm
  rw [List.map_eq_append_iff] at hmap
  obtain ⟨l₁, l₂, hsplit, _, hmap2⟩ := hmap
  rw [List.map_eq_cons_iff] at hmap2
  obtain ⟨d0, zs, hl2, hd0, hzs⟩ := hmap2
  have hd0dot : d0 = '.' := toLower_eq_dot hd0
  refine ⟨l₁, zs, ?_, ?_, ?_⟩
  · rw [hsplit, hl2, hd0dot]
  · intro hz
    subst hz
    simp only [List.map_nil] at hzs
    exact htne hzs.symm
  · intro c hc
    have hmem : c.toLower ∈ tail := by
      rw [← hzs]; exact List.mem_map_of_mem Char.toLower hc
    rcases htail _ hmem with ⟨h1, h2⟩
    exact ne_dot_slash_of_toLower h1 h2

/-- Any name accepted by the extension regex has the final-extension
shape. -/
lemma isImageName_shape {s : String} (h : isImageName s = true) :
    ∃ stem ext : List Char, s.data = stem ++ '.' :: ext ∧ ext ≠ [] ∧
      ∀ c ∈ ext, c ≠ '.' ∧ c ≠ '/' := by
  unfold isImageName at h
  rw [List.any_eq_true] at h
  obtain ⟨e, he, hsuf⟩ := h
  simp only [imageExts, List.mem_cons, List.not_mem_nil, or_false] at he
  rcases he with rfl | rfl | rfl | rfl | rfl
  · exact shape_of_suffix hsuf "jpg".data (by decide) (by decide) (by decide)
  · exact shape_of_suffix hsuf "jpeg".data (by decide) (by decide) (by decide)
  · exact shape_of_suffix hsuf "png".data (by decide) (by decide) (by decide)
  · exact shape_of_suffix hsuf "gif".data (by decide) (by decide) (by decide)
  · exact shape_of_suffix hsuf "webp".data (by decide) (by decide) (by decide)

/-- The filter predicate of the route coincides with the spec-worded
eligibility predicate. -/
lemma eligible_eq_spec (f : GitHubFile) : isEligible f = specEligible f := by
  have h1 : ("." ++ "jpg" : String) = ".jpg" := by decide
  have h2 : ("." ++ "jpeg" : String) = ".jpeg" := by decide
  have h3 : ("." ++ "png" : String) = ".png" := by decide
  have h4 : ("." ++ "gif" : String) = ".gif" := by decide
  have h5 : ("." ++ "webp" : String) = ".webp" := by decide
  simp only [isEligible, specEligible, isImageName, imageExts, specAllowList,
    List.any_cons, List.any_nil, h1, h2, h3, h4, h5]

/-! ### Claim theorems -/

/-- Claim C2: the eligibility filter selects exactly the descriptors
whose kind is `file` and whose name ends, case-insensitively, with one
of the extensions jpg, jpeg, png, gif, webp, and it preserves the
input order. -/
theorem claim_C2_filter_matches_spec (files : List GitHubFile) :
    imageFiles files = files.filter specEligible ∧
    (imageFiles files).Sublist files := by
  constructor
  · exact List.filter_congr fun f _ => eligible_eq_spec f
  · exact List.filter_sublist files

/-- Claim C3: when the listing request throws, the run returns status
500 with the error message and issues zero upload calls; a successful
listing always produces status 200, so the failure response is
reachable only from the listing stage. -/
theorem claim_C3_listing_failure_aborts (e : String)
    (up : GitHubFile → Option String) (files : List GitHubFile) :
    GET (Except.error e) up = ⟨500, Body.error e⟩ ∧
    GETcalls (Except.error e) up = [] ∧
    (GET (Except.ok files) up).status = 200 :=
  ⟨rfl, rfl, rfl⟩

/-- Claim C4 (code bug): the options the route hands to the uploader
for an eligible file carry only the folder and the public id — no
width/height, no crop policy, no WebP format — contradicting the
repository README, which documents a
`transformation: [{width: 500, height: 400, crop: 'fill'}]` and
`format: 'webp'` on every upload. -/
theorem claim_C4_no_transform_params :
    uploadCallOf ⟨"photo.jpg", "https://raw.example/photo.jpg", "file"⟩
      = ⟨"https://raw.example/photo.jpg",
         ⟨"github-images", "photo", none, []⟩⟩ := by
  decide

/-- Claim C8 counterexample: with a source-access credential
configured, the listing request still carries no authorization
credential (the header is commented out in the source), refuting the
claim that the token is sent as a bearer credential. -/
theorem claim_C8_counterexample :
    (listingRequest "octocat" "photos" (some "ghp_secret")).authorization
      = none :=
  rfl

/-- Claim C8 (amended): the listing request never carries an
authorization credential, whether or not the source-access credential
is configured; it always carries the fixed Accept value. -/
theorem claim_C8_no_auth_header (owner repo : String)
    (token : Option String) :
    (listingRequest owner repo token).authorization = none ∧
    (listingRequest owner repo token).accept
      = "application/vnd.github.v3+json" :=
  ⟨rfl, rfl⟩

/-- Claim C10: a name that is only an extension, such as `".gif"`,
passes the eligibility filter, derives the empty upload identifier,
and is uploaded under the empty public id. -/
theorem claim_C10_bare_extension_empty_id :
    isEligible ⟨".gif", "https://raw.example/.gif", "file"⟩ = true ∧
    stripExt ".gif" = "" ∧
    uploadCalls (fun _ => some "https://cdn.example/x")
        [⟨".gif", "https://raw.example/.gif", "file"⟩]
      = [⟨"https://raw.example/.gif", ⟨"github-images", "", none, []⟩⟩] := by
  refine ⟨by decide, by decide, ?_⟩
  rfl

/-- Claim C1: even when the upload of item `k` fails, every eligible
item still has its upload call issued; the final `uploaded` list has
length N minus the number of failures, collects exactly the
successes, and preserves their relative input order. -/
theorem claim_C1_partial_failure_tolerance (files : List GitHubFile)
    (up : GitHubFile → Option String) (k : Nat)
    (hk : k < (imageFiles files).length)
    (_hfail : up ((imageFiles files).get ⟨k, hk⟩) = none) :
    uploadCalls up (imageFiles files) = (imageFiles files).map uploadCallOf ∧
    (runUploads up (imageFiles files)).length
      = (imageFiles files).length
        - ((imageFiles files).filter (fun f => (up f).isNone)).length ∧
    runUploads up (imageFiles files)
      = ((imageFiles files).filter (fun f => (up f).isSome)).map
          (fun f => UploadEntry.mk f.name ((up f).getD "")) ∧
    ((runUploads up (imageFiles files)).map UploadEntry.file).Sublist
      ((imageFiles files).map GitHubFile.name) := by
  refine ⟨processFiles_fst up _, ?_, runUploads_eq up _, ?_⟩
  · rw [runUploads_eq, List.length_map]
    have := length_filter_isSome_add_isNone up (imageFiles files)
    omega
  · rw [runUploads_eq, List.map_map]
    have hcomp : (UploadEntry.file ∘ fun f => UploadEntry.mk f.name ((up f).getD ""))
        = GitHubFile.name := rfl
    rw [hcomp]
    exact (List.filter_sublist _).map _

/-- Witness for C1 at a concrete two-file listing in which the first
upload fails. -/
theorem claim_C1_witness :
    uploadCalls (fun f => if f.name = "a.jpg" then none else some "u")
        (imageFiles [⟨"a.jpg", "r1", "file"⟩, ⟨"b.png", "r2", "file"⟩])
      = (imageFiles [⟨"a.jpg", "r1", "file"⟩, ⟨"b.png", "r2", "file"⟩]).map
          uploadCallOf ∧
    (runUploads (fun f => if f.name = "a.jpg" then none else some "u")
        (imageFiles [⟨"a.jpg", "r1", "file"⟩, ⟨"b.png", "r2", "file"⟩])).length
      = (imageFiles [⟨"a.jpg", "r1", "file"⟩, ⟨"b.png", "r2", "file"⟩]).length
        - ((imageFiles [⟨"a.jpg", "r1", "file"⟩, ⟨"b.png", "r2", "file"⟩]).filter
            (fun f =>
              ((fun f => if f.name = "a.jpg" then none else some "u") f).isNone)).length ∧
    runUploads (fun f => if f.name = "a.jpg" then none else some "u")
        (imageFiles [⟨"a.jpg", "r1", "file"⟩, ⟨"b.png", "r2", "file"⟩])
      = ((imageFiles [⟨"a.jpg", "r1", "file"⟩, ⟨"b.png", "r2", "file"⟩]).filter
            (fun f =>
              ((fun f => if f.name = "a.jpg" then none else some "u") f).isSome)).map
          (fun f => UploadEntry.mk f.name
            (((fun f => if f.name = "a.jpg" then none else some "u") f).getD "")) ∧
    ((runUploads (fun f => if f.name = "a.jpg" then none else some "u")
        (imageFiles [⟨"a.jpg", "r1", "file"⟩, ⟨"b.png", "r2", "file"⟩])).map
          UploadEntry.file).Sublist
      ((imageFiles [⟨"a.jpg", "r1", "file"⟩, ⟨"b.png", "r2", "file"⟩]).map
          GitHubFile.name) :=
  claim_C1_partial_failure_tolerance
    [⟨"a.jpg", "r1", "file"⟩, ⟨"b.png", "r2", "file"⟩]
    (fun f => if f.name = "a.jpg" then none else some "u") 0
    (by decide) (by decide)

/-- Claim C5: the upload identifier of any name accepted by the
extension filter is the name with exactly its final extension segment
stripped, and `"photo.final.png"` yields `"photo.final"`. -/
theorem claim_C5_identifier_strips_last_ext (s : String)
    (h : isImageName s = true) :
    stripExt "photo.final.png" = "photo.final" ∧
    stripExt s = specStripLastExt s ∧
    ∃ stem ext : List Char, s.data = stem ++ '.' :: ext ∧ ext ≠ [] ∧
      (∀ c ∈ ext, c ≠ '.' ∧ c ≠ '/') ∧ stripExt s = String.mk stem := by
  obtain ⟨stem, ext, hs, hne, hext⟩ := isImageName_shape h
  have hsmk : s = String.mk (stem ++ '.' :: ext) := by
    cases s
    exact congrArg String.mk hs
  refine ⟨by decide, ?_, stem, ext, hs, hne, hext, ?_⟩
  · rw [hsmk, stripExt_of_shape stem ext hne hext,
      specStripLastExt_of_shape stem ext (fun c hc => (hext c hc).1)]
  · rw [hsmk, stripExt_of_shape stem ext hne hext]

/-- Witness for C5 at the spec's example name. -/
theorem claim_C5_witness :
    stripExt "photo.final.png" = "photo.final" ∧
    stripExt "photo.final.png" = specStripLastExt "photo.final.png" ∧
    ∃ stem ext : List Char,
      "photo.final.png".data = stem ++ '.' :: ext ∧ ext ≠ [] ∧
      (∀ c ∈ ext, c ≠ '.' ∧ c ≠ '/') ∧
      stripExt "photo.final.png" = String.mk stem :=
  claim_C5_identifier_strips_last_ext "photo.final.png" (by decide)

/-- Claim C6: a 200 response implies the listing succeeded; then every
eligible item had its upload call issued and the body consists of the
fixed message plus exactly the successful uploads — failed items
appear nowhere in it. -/
theorem claim_C6_success_report (listing : Except String (List GitHubFile))
    (up : GitHubFile → Option String)
    (h : (GET listing up).status = 200) :
    ∃ files, listing = Except.ok files ∧
      GETcalls listing up = (imageFiles files).map uploadCallOf ∧
      GET listing up = ⟨200, Body.report "Upload complete"
        (((imageFiles files).filter (fun f => (up f).isSome)).map
          (fun f => UploadEntry.mk f.name ((up f).getD "")))⟩ := by
  cases listing with
  | error e => simp [GET] at h
  | ok files =>
      refine ⟨files, rfl, processFiles_fst up _, ?_⟩
      simp [GET, runUploads_eq]

/-- Witness for C6 at a successful listing of a single eligible file. -/
theorem claim_C6_witness :
    ∃ files,
      (Except.ok [⟨"a.jpg", "r1", "file"⟩] :
        Except String (List GitHubFile)) = Except.ok files ∧
      GETcalls (Except.ok [⟨"a.jpg", "r1", "file"⟩]) (fun _ => some "u")
        = (imageFiles files).map uploadCallOf ∧
      GET (Except.ok [⟨"a.jpg", "r1", "file"⟩]) (fun _ => some "u")
        = ⟨200, Body.report "Upload complete"
            (((imageFiles files).filter
              (fun f => ((fun _ => some "u") f : Option String).isSome)).map
              (fun f => UploadEntry.mk f.name
                (((fun _ => some "u") f : Option String).getD "")))⟩ :=
  claim_C6_success_report (Except.ok [⟨"a.jpg", "r1", "file"⟩])
    (fun _ => some "u") rfl

/-- Claim C7: every upload call of a run comes from a listed
descriptor of kind `file` whose name passes the image-extension
allow-list; descriptors of any other kind or name are never passed to
the upload stage. -/
theorem claim_C7_only_eligible_uploaded (files : List GitHubFile)
    (up : GitHubFile → Option String) (c : UploadCall)
    (hc : c ∈ GETcalls (Except.ok files) up) :
    ∃ f, f ∈ files ∧ f.type = "file" ∧ isImageName f.name = true ∧
      c = uploadCallOf f := by
  have hcalls : GETcalls (Except.ok files) up
      = (imageFiles files).map uploadCallOf := processFiles_fst up _
  rw [hcalls] at hc
  obtain ⟨f, hf, rfl⟩ := List.mem_map.mp hc
  have hmem : f ∈ files := List.mem_of_mem_filter hf
  have helig : isEligible f = true := List.of_mem_filter hf
  unfold isEligible at helig
  rw [Bool.and_eq_true] at helig
  refine ⟨f, hmem, ?_, helig.2, rfl⟩
  simpa using helig.1

/-- Witness for C7 at a mixed listing containing a directory, a
non-image file and one eligible image. -/
theorem claim_C7_witness :
    ∃ f, f ∈ [⟨"readme.md", "r0", "file"⟩, ⟨"sub", "r1", "dir"⟩,
              ⟨"a.jpg", "r2", "file"⟩] ∧
      f.type = "file" ∧ isImageName f.name = true ∧
      (⟨"r2", ⟨"github-images", "a", none, []⟩⟩ : UploadCall)
        = uploadCallOf f :=
  claim_C7_only_eligible_uploaded
    [⟨"readme.md", "r0", "file"⟩, ⟨"sub", "r1", "dir"⟩,
     ⟨"a.jpg", "r2", "file"⟩]
    (fun _ => some "u")
    ⟨"r2", ⟨"github-images", "a", none, []⟩⟩
    (by decide)

/-- Claim C9: at every intermediate point of the loop, the accumulated
`uploaded` list is the success projection of the processed prefix of
the eligible files, its file names form an in-order subsequence of the
eligible names, and the lengths are monotone down the pipeline. -/
theorem claim_C9_uploaded_projection (files : List GitHubFile)
    (up : GitHubFile → Option String) (i : Nat) :
    runUploads up ((imageFiles files).take i)
      = (((imageFiles files).take i).filter (fun f => (up f).isSome)).map
          (fun f => UploadEntry.mk f.name ((up f).getD "")) ∧
    ((runUploads up ((imageFiles files).take i)).map UploadEntry.file).Sublist
      ((imageFiles files).map GitHubFile.name) ∧
    (runUploads up ((imageFiles files).take i)).length
      ≤ (imageFiles files).length ∧
    (imageFiles files).length ≤ files.length := by
  refine ⟨runUploads_eq up _, ?_, ?_, (List.filter_sublist files).length_le⟩
  · rw [runUploads_eq, List.map_map]
    have hcomp : (UploadEntry.file ∘ fun f => UploadEntry.mk f.name ((up f).getD ""))
        = GitHubFile.name := rfl
    rw [hcomp]
    exact ((List.filter_sublist _).trans (List.take_sublist i _)).map _
  · calc (runUploads up ((imageFiles files).take i)).length
        ≤ ((imageFiles files).take i).length := by
          rw [runUploads_eq, List.length_map]
          exact (List.filter_sublist _).length_le
      _ ≤ (imageFiles files).length := (List.take_sublist i _).length_le

end HourlyUpload
